import Mathlib

/-!
# cppdatastream: data blocks, stage chains and the threaded buffer

A shallow embedding of `include/cppdatastream/DataStream.hpp` and of the concrete
stages of `src/Main.cpp`, followed by the theorems about them.

* `std::any` is a value tagged with its runtime type (`StdAny`); `std::shared_ptr` is an
  `Option` (`none` is the null pointer).
* Dereferencing a null pointer is the fault `Fault.nullDereference`.
* A chain of stages is the list of its stages, head first: the `_downstream` of a stage is
  the rest of the list, and the last stage has a null `_downstream`.
* The stage classes are `DataStreamThreadedBuffer`, `DataStreamPassThrough` and
  `SimpleDataStreamProcessor`; any other class derived from `DataStream` (the throughput
  monitor of `Main.cpp` among them) is a `custom` stage.
* The queue of a `DataStreamThreadedBuffer` is a FIFO list bounded by `maxBlocks`; the queue
  library itself is external to the repository.
* Replacing a downstream destroys the replaced chain, and the destructor of a threaded
  buffer joins its worker (`destroy`).
* Threads are interleaved by a schedule of moves (`Action`): a move of the producer is one
  call of `pushData` at the head, a move of a worker is one turn of the loop of `run`. A
  call that cannot return yet (full or empty queue) leaves the state as it is and is taken
  up again by a later move.
-/

namespace CppDataStream

/-! ## Payloads: `std::any` -/

/-- The runtime types a payload can have; `dataT` is `DataT = AlignedVector<uint8_t>`. -/
inductive PayloadTy where
  | dataT
  | uint64
  | int32
  deriving DecidableEq, Repr

/-- The values of a payload type. -/
@[reducible] def PayloadTy.El : PayloadTy → Type
  | .dataT => List (Fin 256)
  | .uint64 => Fin (2 ^ 64)
  | .int32 => Int

instance PayloadTy.decEqEl : (T : PayloadTy) → DecidableEq T.El
  | .dataT => inferInstanceAs (DecidableEq (List (Fin 256)))
  | .uint64 => inferInstanceAs (DecidableEq (Fin (2 ^ 64)))
  | .int32 => inferInstanceAs (DecidableEq Int)

/-- A `std::any` holding a value: the stored type and the value. -/
structure StdAny where
  ty : PayloadTy
  val : ty.El

instance StdAny.decEq : DecidableEq StdAny
  | ⟨s, v⟩, ⟨t, w⟩ =>
    if h : s = t then by
      subst h
      exact if hv : v = w then isTrue (by rw [hv]) else
        isFalse (fun e => hv (by cases e; rfl))
    else isFalse (fun e => h (by cases e; rfl))

/-- What can go wrong in the chain mechanics. -/
inductive Fault where
  /-- A null pointer was dereferenced. -/
  | nullDereference
  /-- The exception `std::bad_any_cast`, which the reference form of `std::any_cast` throws
  on a payload of another type; the pointer form, the one the code calls, never throws. -/
  | badAnyCast
  deriving DecidableEq, Repr

/-- The pointer form `std::any_cast<T>(std::any*)`: the null pointer when the operand is null
or holds another type, a pointer to the held value otherwise. -/
def any_cast (T : PayloadTy) : Option StdAny → Option T.El
  | none => none
  | some a => if h : a.ty = T then some (h ▸ a.val) else none

/-! ## Data blocks -/

/-- The class `SharedDataBlock`: a shared pointer to the payload and the end-of-processing
flag. -/
structure SharedDataBlock where
  _data : Option StdAny := none
  _eop : Bool := false
  deriving DecidableEq

/-- The member `SharedDataBlock::data<T>()`, `*std::any_cast<T>(_data.get())`. -/
def SharedDataBlock.data (b : SharedDataBlock) (T : PayloadTy) : Except Fault T.El :=
  match any_cast T b._data with
  | some v => .ok v
  | none => .error .nullDereference

/-- The member `SharedDataBlock::isEndOfProcessing`. -/
def SharedDataBlock.isEndOfProcessing (b : SharedDataBlock) : Bool := b._eop

/-- The class `WritableDataBlock`, derived from `SharedDataBlock`. -/
structure WritableDataBlock extends SharedDataBlock

/-- The default constructor `WritableDataBlock()`. -/
def WritableDataBlock.new : WritableDataBlock := {}

/-- The member `WritableDataBlock::setEndOfProcessing`. -/
def WritableDataBlock.setEndOfProcessing (b : WritableDataBlock) : WritableDataBlock :=
  { b with _eop := true }

/-- The member `WritableDataBlock::setData`:
`_data = std::make_shared<std::any>(std::any(data))`. -/
def WritableDataBlock.setData (b : WritableDataBlock) {S : PayloadTy} (data : S.El) :
    WritableDataBlock :=
  { b with _data := some ⟨S, data⟩ }

/-- The member `WritableDataBlock::asShared`; also the conversion made when a writable
block is passed as `const SharedDataBlock&`. -/
def WritableDataBlock.asShared (b : WritableDataBlock) : SharedDataBlock :=
  b.toSharedDataBlock

/-! ## Stages -/

/-- The state of the `std::thread` that executes `DataStreamThreadedBuffer::run`. -/
inductive ThreadState where
  /-- The thread is inside `run`. -/
  | running
  /-- The function `run` has returned. -/
  | finished
  deriving DecidableEq, Repr

/-- What the worker thread of a threaded buffer did, in the order it did it. -/
inductive Event where
  /-- A call of `_queue.wait_dequeue` returned the block. -/
  | dequeued (sdb : SharedDataBlock)
  /-- The call `this->processData(sdb)` returned, for the dequeued block `sdb`. -/
  | processed (sdb : SharedDataBlock)
  /-- The call `_downstream->pushData` with the result of processing the dequeued block
  `sdb` returned. -/
  | pushed (sdb : SharedDataBlock)
  deriving DecidableEq

/-- The concrete class of a stage, with its private members. -/
inductive StageImpl where
  /-- The class `DataStreamPassThrough`. -/
  | passThrough (_index : Nat)
  /-- The class `SimpleDataStreamProcessor`, with `uint64_t _sum`. -/
  | simpleProcessor (_sum : Nat)
  /-- The class `DataStreamThreadedBuffer`: the queue (front first), its bound, the mode and
  the worker thread; `events` is a record of what the worker did and is not read by the
  code. -/
  | threadedBuffer (_queue : List SharedDataBlock) (maxBlocks : Nat) (_block_on_full : Bool)
      (_thread : ThreadState) (events : List Event)
  /-- Any other class derived from the abstract `DataStream`: its `processData` as a
  function of the blocks it was given before and of the block it is given now. -/
  | custom (process : List SharedDataBlock → SharedDataBlock → Except Fault SharedDataBlock)

/-- A stage: its class and members, and the record `seen` of the blocks its `processData`
has been called with (oldest first), which the code does not read. -/
structure Stage where
  impl : StageImpl
  seen : List SharedDataBlock := []

/-- Note that `processData` was called on the stage with `sdb`. -/
def Stage.record (s : Stage) (sdb : SharedDataBlock) : Stage :=
  { s with seen := s.seen ++ [sdb] }

/-- Why a call has not returned a value. -/
inductive Halt where
  /-- The call faulted. -/
  | fault (f : Fault)
  /-- The call is held in `pushData` of a threaded buffer whose queue is full. -/
  | queueFull
  /-- The call is held in `wait_dequeue` on an empty queue. -/
  | queueEmpty
  /-- There is no running worker to take the step. -/
  | noWorker
  /-- The call is held in `_thread.join()` of the destructor of a threaded buffer whose
  worker is still inside `run`. -/
  | joining
  /-- The recursion bound of `pushDataAux` was reached: this is no behaviour of the code
  and `pushData` never yields it (`pushData_ne_outOfFuel`). -/
  | outOfFuel
  deriving DecidableEq, Repr

/-- `std::accumulate(data.cbegin(), data.cend(), 0ul)` with an `unsigned long` accumulator
of 64 bits. -/
def accumulate (data : List (Fin 256)) (init : Nat) : Nat :=
  data.foldl (fun acc x => (acc + x.val) % 2 ^ 64) init

/-! ## The bounded queue -/

/-- Modelled from the spec: `BlockingConcurrentQueue::try_enqueue` of the external queue
library, on a FIFO queue bounded by `maxBlocks`; it adds the block at the back and reports
`true` when there is room, and leaves the queue alone and reports `false` when it is
full. -/
def try_enqueue (q : List SharedDataBlock) (maxBlocks : Nat) (sdb : SharedDataBlock) :
    Bool × List SharedDataBlock :=
  if q.length < maxBlocks then (true, q ++ [sdb]) else (false, q)

/-- Modelled from the spec: the blocking `BlockingConcurrentQueue::enqueue` of the external
queue library; it adds the block at the back once there is room, and on a full queue the
caller stays suspended (`none`). -/
def enqueue (q : List SharedDataBlock) (maxBlocks : Nat) (sdb : SharedDataBlock) :
    Option (List SharedDataBlock) :=
  if q.length < maxBlocks then some (q ++ [sdb]) else none

/-- Modelled from the spec: `BlockingConcurrentQueue::wait_dequeue` of the external queue
library; it removes and returns the front block, and on an empty queue the caller stays
suspended (`none`). -/
def wait_dequeue : List SharedDataBlock → Option (SharedDataBlock × List SharedDataBlock)
  | [] => none
  | sdb :: q => some (sdb, q)

/-- The queue part of `DataStreamThreadedBuffer::pushData`: the queue when the call returns;
`none` while the call is still in its retry loop (`_block_on_full` false) or suspended in
`enqueue` (`_block_on_full` true). -/
def DataStreamThreadedBuffer.pushData (q : List SharedDataBlock) (maxBlocks : Nat)
    (_block_on_full : Bool) (sdb : SharedDataBlock) : Option (List SharedDataBlock) :=
  if !_block_on_full then
    match try_enqueue q maxBlocks sdb with
    | (true, q') => some q'
    | (false, _) => none
  else
    enqueue q maxBlocks sdb

/-! ## Chains

A `DataStream*` and all it owns is the list of the stages from the pointed one on; the null
pointer is the empty list. -/

/-- The virtual `processData`, called through a pointer to the head of the chain. -/
def processData : List Stage → SharedDataBlock → Except Halt (List Stage × SharedDataBlock)
  | [], _ => .error (.fault .nullDereference)
  | s :: rest, sdb =>
    match s.impl with
    | .passThrough _ => .ok (s.record sdb :: rest, sdb)
    | .simpleProcessor _sum =>
      if sdb.isEndOfProcessing then .ok (s.record sdb :: rest, sdb)
      else
        match sdb.data .dataT with
        | .error f => .error (.fault f)
        | .ok data =>
          .ok ({ impl := .simpleProcessor ((_sum + accumulate data 0) % 2 ^ 64),
                 seen := s.seen ++ [sdb] } :: rest, sdb)
    | .threadedBuffer _ _ _ _ _ =>
      match processData rest sdb with
      | .error e => .error e
      | .ok (rest', out) => .ok (s.record sdb :: rest', out)
    | .custom process =>
      match process s.seen sdb with
      | .error f => .error (.fault f)
      | .ok out => .ok (s.record sdb :: rest, out)

/-- The virtual `pushData`, called through a pointer to the head of the chain, with a bound
on the depth of the recursion. -/
def pushDataAux : Nat → List Stage → SharedDataBlock → Except Halt (List Stage)
  | _, [], _ => .error (.fault .nullDereference)
  | 0, _ :: _, _ => .error .outOfFuel
  | n + 1, s :: rest, sdb =>
    match s.impl with
    | .threadedBuffer q maxBlocks bof th ev =>
      match DataStreamThreadedBuffer.pushData q maxBlocks bof sdb with
      | some q' => .ok ({ s with impl := .threadedBuffer q' maxBlocks bof th ev } :: rest)
      | none => .error .queueFull
    | _ =>
      match rest with
      | [] => .ok [s]
      | d :: rest2 =>
        match processData (d :: rest2) sdb with
        | .error e => .error e
        | .ok (rest', processed) =>
          match pushDataAux n rest' processed with
          | .error e => .error e
          | .ok rest'' => .ok (s :: rest'')

/-- The virtual `pushData`: the recursion goes one stage down at each call, so the length
of the chain bounds it. -/
def pushData (c : List Stage) (sdb : SharedDataBlock) : Except Halt (List Stage) :=
  pushDataAux c.length c sdb

/-- One turn of the loop of `DataStreamThreadedBuffer::run`, for the threaded buffer at the
head of the chain: a `wait_dequeue`, the test of the block, and the body of the loop when
the block is not the end of processing. -/
def runStep : List Stage → Except Halt (List Stage)
  | [] => .error .noWorker
  | s :: rest =>
    match s.impl with
    | .threadedBuffer q maxBlocks bof .running ev =>
      match wait_dequeue q with
      | none => .error .queueEmpty
      | some (sdb, q') =>
        if sdb.isEndOfProcessing then
          .ok (⟨.threadedBuffer q' maxBlocks bof .finished (ev ++ [.dequeued sdb]), s.seen⟩
            :: rest)
        else
          match rest with
          | [] =>
            .ok [⟨.threadedBuffer q' maxBlocks bof .running (ev ++ [.dequeued sdb]), s.seen⟩]
          | d :: rest2 =>
            -- `this->processData(sdb)` is `_downstream->processData(sdb)`
            match processData (d :: rest2) sdb with
            | .error e => .error e
            | .ok (rest', out) =>
              match pushData rest' out with
              | .error e => .error e
              | .ok rest'' =>
                .ok (⟨.threadedBuffer q' maxBlocks bof .running
                        (ev ++ [.dequeued sdb, .processed sdb, .pushed sdb]),
                      s.seen ++ [sdb]⟩ :: rest'')
    | _ => .error .noWorker

/-! ## Producer and workers -/

/-- A producer thread that still has to push the blocks `pending`, in this order, at the head
of `chain`. -/
structure System where
  pending : List SharedDataBlock
  chain : List Stage

/-- The moves of the threads. -/
inductive Action where
  /-- The producer is in `pushData` of the head of the chain with its next block. -/
  | push
  /-- The worker of the threaded buffer at depth `i` of the chain takes a turn of its loop. -/
  | work (i : Nat)
  deriving DecidableEq

/-- One move. A move that is held (full queue, empty queue, no running worker, nothing left
to push) leaves the system as it is; a fault ends the program. -/
def step (a : Action) (σ : System) : Except Fault System :=
  match a with
  | .push =>
    match σ.pending with
    | [] => .ok σ
    | sdb :: later =>
      match pushData σ.chain sdb with
      | .ok c => .ok ⟨later, c⟩
      | .error (.fault f) => .error f
      | .error _ => .ok σ
  | .work i =>
    match runStep (σ.chain.drop i) with
    | .ok c => .ok ⟨σ.pending, σ.chain.take i ++ c⟩
    | .error (.fault f) => .error f
    | .error _ => .ok σ

/-- A schedule of moves, from the first to the last. -/
def exec : List Action → System → Except Fault System
  | [], σ => .ok σ
  | a :: as, σ =>
    match step a σ with
    | .error f => .error f
    | .ok σ' => exec as σ'

/-- The constructor `DataStreamThreadedBuffer(maxBlocks, blockOnFull)`: an empty queue and a
started worker thread. -/
def DataStreamThreadedBuffer.new (maxBlocks : Nat := 100) (blockOnFull : Bool := false) :
    Stage :=
  ⟨.threadedBuffer [] maxBlocks blockOnFull .running [], []⟩

/-- The constructor `DataStreamPassThrough(index)`. -/
def DataStreamPassThrough.new (index : Nat) : Stage := ⟨.passThrough index, []⟩

/-- The constructor of `SimpleDataStreamProcessor`, with `_sum{0}`. -/
def SimpleDataStreamProcessor.new : Stage := ⟨.simpleProcessor 0, []⟩

/-- The blocks a stage at depth `i` of the chain has had its `processData` called with. -/
def seenAt (c : List Stage) (i : Nat) : List SharedDataBlock :=
  match c.get? i with
  | some s => s.seen
  | none => []

/-- The worker thread of the stage, when the stage is a threaded buffer. -/
def Stage.thread? (s : Stage) : Option ThreadState :=
  match s.impl with
  | .threadedBuffer _ _ _ th _ => some th
  | _ => none

/-- The queue of the stage, when the stage is a threaded buffer. -/
def Stage.queue? (s : Stage) : Option (List SharedDataBlock) :=
  match s.impl with
  | .threadedBuffer q _ _ _ _ => some q
  | _ => none

/-- What the worker of the stage did, when the stage is a threaded buffer. -/
def Stage.events (s : Stage) : List Event :=
  match s.impl with
  | .threadedBuffer _ _ _ _ ev => ev
  | _ => []

/-- The sum of a `SimpleDataStreamProcessor`. -/
def Stage.sum? (s : Stage) : Option Nat :=
  match s.impl with
  | .simpleProcessor sum => some sum
  | _ => none

/-! ## Assembly -/

/-- The destruction of a chain by the `std::unique_ptr` that owned it, from its head down:
the destructor of a threaded buffer joins its worker thread before its `_downstream` is
destroyed in turn, and the other stages just destroy their `_downstream`. A join returns
once the worker has left `run`; a worker that is still inside `run` leaves it only by
further turns of its own loop (`runStep`), and until then the caller is held in
`_thread.join()`. -/
def destroy : List Stage → Except Halt Unit
  | [] => .ok ()
  | s :: rest =>
    match s.impl with
    | .threadedBuffer _ _ _ .running _ => .error .joining
    | _ => destroy rest

/-- `DataStream::connect`, called through a pointer to the stage at depth `k` of the chain
`c` with the owning pointer `downstream`: `_downstream = std::move(downstream)` gives the
stage `downstream` as its `_downstream` and destroys the chain it owned before, and the call
returns `_downstream.get()`, the pointer to depth `k + 1`. While the destruction is held in
a join the call has not returned. Calling through a pointer to no stage is a fault. -/
def connect (c : List Stage) (k : Nat) (downstream : List Stage) :
    Except Halt (List Stage × Nat) :=
  if k < c.length then
    match destroy (c.drop (k + 1)) with
    | .error e => .error e
    | .ok () => .ok (c.take (k + 1) ++ downstream, k + 1)
  else .error (.fault .nullDereference)

/-- `DataStream::downStream`, called through a pointer to the stage at depth `k`. -/
def downStream (c : List Stage) (k : Nat) : List Stage := c.drop (k + 1)

/-- The assembly loop of `main`: `downstream = downstream->connect(...)` for each stage of
`ds` in turn, from the pointer to depth `k`. -/
def connectAll : List Stage → Nat → List Stage → Except Halt (List Stage × Nat)
  | c, k, [] => .ok (c, k)
  | c, k, d :: ds =>
    match connect c k [d] with
    | .error e => .error e
    | .ok (c', k') => connectAll c' k' ds

/-! ## Blocks made by the producer -/

/-- The end-of-processing block of `main`: `WritableDataBlock()` with `setEndOfProcessing`,
passed as a `SharedDataBlock`. -/
def endBlock : SharedDataBlock := WritableDataBlock.new.setEndOfProcessing.asShared

/-- A data block of `main`: `WritableDataBlock()` with `setData(vec)`, passed as a
`SharedDataBlock`. -/
def dataBlock (vec : List (Fin 256)) : SharedDataBlock :=
  (WritableDataBlock.new.setData (S := .dataT) vec).asShared

/-! ## Descriptions used by the theorems -/

/-- The body of the loop of `run` below the threaded buffer: `_downstream->processData`
and then `_downstream->pushData` with its result, and nothing when `_downstream` is null. -/
def feed : List Stage → SharedDataBlock → Except Halt (List Stage)
  | [], _ => .ok []
  | d :: rest2, sdb =>
    match processData (d :: rest2) sdb with
    | .error e => .error e
    | .ok (rest', out) => pushData rest' out

/-- The stage's own `processData` returns whatever it is given: it is a pass-through stage,
or of another class whose `processData` has a result on every block after every history. -/
def Stage.reliable (s : Stage) : Prop :=
  match s.impl with
  | .passThrough _ => True
  | .custom process => ∀ hist sdb, ∃ out, process hist sdb = .ok out
  | _ => False

/-- A chain without threaded buffers, all of whose stages are reliable. -/
def Reliable (c : List Stage) : Prop := ∀ s ∈ c, s.reliable

/-- What the worker has recorded after dequeuing the blocks `done`, with (`hasDown`) or
without a downstream. -/
def workerEvents (hasDown : Bool) (done : List SharedDataBlock) : List Event :=
  done.flatMap fun sdb =>
    if hasDown && !sdb.isEndOfProcessing then [.dequeued sdb, .processed sdb, .pushed sdb]
    else [.dequeued sdb]

/-- The blocks among `done` that the worker passes downstream. -/
def passedOn (done : List SharedDataBlock) : List SharedDataBlock :=
  done.filter fun sdb => !sdb.isEndOfProcessing

/-- The schedule of `n` rounds, in each of which the producer moves and then the worker of
the head. -/
def rounds : Nat → List Action
  | 0 => []
  | n + 1 => .push :: .work 0 :: rounds n

/-- The sum of all the bytes of the vectors, as `uint64_t`. -/
def totalOf (vecs : List (List (Fin 256))) : Nat :=
  (vecs.map fun v => (v.map Fin.val).sum).sum % 2 ^ 64

/-- The system is at a point where the worker of the head has dequeued `done`, the queue
holds `q`, the producer still has `pending` to push, the thread is in state `th`, and the
chain below the head, which has seen `passedOn done`, satisfies `I`. -/
def HeadState (maxBlocks : Nat) (bof hasDown : Bool)
    (I : List SharedDataBlock → List Stage → Prop)
    (done q pending : List SharedDataBlock) (th : ThreadState) (σ : System) : Prop :=
  ∃ d, σ = ⟨pending,
      ⟨.threadedBuffer q maxBlocks bof th (workerEvents hasDown done),
        if hasDown then passedOn done else []⟩ :: d⟩
    ∧ I (passedOn done) d

/-- The state of the worker thread after it has dequeued `done`. -/
def threadAfter (done : List SharedDataBlock) : ThreadState :=
  if done.any SharedDataBlock.isEndOfProcessing then .finished else .running

/-- What the theorems about a head buffer need of the chain below it, `I fed d` saying that
`d` is that chain after the blocks `fed` were passed to it: it is absent exactly when
`hasDown` is false, it takes every data block of `input`, and it has no worker thread. -/
structure Discipline (input : List SharedDataBlock) (hasDown : Bool)
    (I : List SharedDataBlock → List Stage → Prop) : Prop where
  down : ∀ fed d, I fed d → (d = [] ↔ hasDown = false)
  feed : ∀ fed d sdb, I fed d → sdb ∈ input → sdb.isEndOfProcessing = false →
    ∃ d', feed d sdb = .ok d' ∧ I (fed ++ [sdb]) d'
  noWorker : ∀ fed d i, I fed d → runStep (d.drop i) = .error .noWorker

/-- The states that a system headed by a fresh threaded buffer, with `input` to push, goes
through: the blocks dequeued, queued and still to push make up `input` in this order, and no
block was dequeued after an end-of-processing block. -/
def Inv (maxBlocks : Nat) (bof hasDown : Bool) (I : List SharedDataBlock → List Stage → Prop)
    (input : List SharedDataBlock) (σ : System) : Prop :=
  ∃ done q, done ++ q ++ σ.pending = input
    ∧ (∀ sdb ∈ done.dropLast, sdb.isEndOfProcessing = false)
    ∧ HeadState maxBlocks bof hasDown I done q σ.pending (threadAfter done) σ

/-- The record of a worker that dequeued, processed and pushed the blocks one after the
other. -/
def inTurn (bs : List SharedDataBlock) : List Event :=
  bs.flatMap fun sdb => [.dequeued sdb, .processed sdb, .pushed sdb]

/-- The chain of an accumulator and a pass-through stage, fresh at first, after the blocks
`fed`, which are data blocks of some vectors `vs`, were passed to it: both stages have seen
`fed` and the sum of the accumulator is the total of `vs`. -/
def SumAfter (index : Nat) (fed : List SharedDataBlock) (d : List Stage) : Prop :=
  ∃ vs : List (List (Fin 256)), fed = vs.map dataBlock
    ∧ d = [⟨.simpleProcessor (totalOf vs), fed⟩, ⟨.passThrough index, fed⟩]

/-! ## Theorems -/

/-- C6, as amended: after `setData` with a value `v` of type `S`, whatever the block held
before, `data<T>()` returns `v` when `T` is `S`; when `T` is another type the cast yields
the null pointer, which the call dereferences unchecked: the outcome is the fault of a null
dereference and no type-mismatch error is raised. -/
theorem data_setData (b : WritableDataBlock) (S T : PayloadTy) (v : S.El) :
    (b.setData v).asShared.data T
      = if h : S = T then .ok (h ▸ v) else .error .nullDereference := by
  unfold WritableDataBlock.setData WritableDataBlock.asShared SharedDataBlock.data any_cast
  by_cases h : S = T
  · subst h; simp
  · simp [h]

/-- C6, as stated, fails: a block whose payload was stored as a `uint64_t` and is read as a
`DataT` does not end in a type-mismatch error (`std::bad_any_cast`); `any_cast` returns the
null pointer and `data` dereferences it. -/
theorem data_mismatch_not_reported :
    (WritableDataBlock.new.setData (S := .uint64) 1).asShared.data .dataT
        ≠ .error .badAnyCast
    ∧ any_cast .dataT (WritableDataBlock.new.setData (S := .uint64) 1).asShared._data = none
    ∧ (WritableDataBlock.new.setData (S := .uint64) 1).asShared.data .dataT
        = .error .nullDereference :=
  ⟨(fun h => by cases h), rfl, rfl⟩

/-- C9: in both modes, when `pushData` of a threaded buffer returns, the pushed block is at
the back of the queue, once more than before, every block queued before is still there in
the same order, and nothing else of the chain has changed. -/
theorem threadedBuffer_pushData_appends (q : List SharedDataBlock) (maxBlocks : Nat)
    (bof : Bool) (th : ThreadState) (ev : List Event) (seen : List SharedDataBlock)
    (rest c' : List Stage) (sdb : SharedDataBlock)
    (h : pushData (⟨.threadedBuffer q maxBlocks bof th ev, seen⟩ :: rest) sdb = .ok c') :
    c' = ⟨.threadedBuffer (q ++ [sdb]) maxBlocks bof th ev, seen⟩ :: rest
      ∧ (q ++ [sdb]).count sdb = q.count sdb + 1
      ∧ (q ++ [sdb]).take q.length = q := by
  refine ⟨?_, by simp, by simp⟩
  simp only [pushData, List.length_cons, pushDataAux, DataStreamThreadedBuffer.pushData,
    try_enqueue, enqueue] at h
  by_cases hq : q.length < maxBlocks <;> cases bof <;> simp [hq] at h
  · exact h.symm
  · exact h.symm

/-- C9, at a queue of one block with room for a second, in the retrying mode. -/
theorem threadedBuffer_pushData_appends_witness :
    pushData [⟨.threadedBuffer [dataBlock [1]] 2 false .running [], []⟩] endBlock
        = .ok [⟨.threadedBuffer ([dataBlock [1]] ++ [endBlock]) 2 false .running [], []⟩]
      ∧ ([dataBlock [1]] ++ [endBlock]).count endBlock = [dataBlock [1]].count endBlock + 1
      ∧ ([dataBlock [1]] ++ [endBlock]).take [dataBlock [1]].length = [dataBlock [1]] :=
  ⟨rfl, threadedBuffer_pushData_appends [dataBlock [1]] 2 false .running [] [] [] _ endBlock
    rfl |>.2⟩

/-! ### Assembly with `connect` -/

theorem destroy_of_joined (old : List Stage)
    (hold : ∀ x ∈ old, x.thread? ≠ some .running) : destroy old = .ok () := by
  induction old with
  | nil => rfl
  | cons x xs ih =>
    have hx := hold x (by simp)
    have ih' := ih (fun y hy => hold y (by simp [hy]))
    obtain ⟨impl, seen⟩ := x
    cases impl with
    | threadedBuffer q m b t e =>
      cases t with
      | running => exact absurd rfl hx
      | finished => simpa [destroy] using ih'
    | passThrough i => simpa [destroy] using ih'
    | simpleProcessor n => simpa [destroy] using ih'
    | custom f => simpa [destroy] using ih'

theorem connect_at (pre old : List Stage) (s : Stage) (downstream : List Stage)
    (hold : ∀ x ∈ old, x.thread? ≠ some .running) :
    connect (pre ++ s :: old) pre.length downstream
      = .ok (pre ++ s :: downstream, pre.length + 1) := by
  have h : pre.length < (pre ++ s :: old).length := by simp
  have ht : (pre ++ s :: old).take (pre.length + 1) = pre ++ [s] := by
    rw [List.take_append_eq_append_take]; simp
  have hd : (pre ++ s :: old).drop (pre.length + 1) = old := by
    rw [List.drop_append_eq_append_drop]; simp
  simp [connect, h, ht, hd, destroy_of_joined old hold]

theorem connectAll_at (pre : List Stage) (s : Stage) (ds : List Stage) :
    connectAll (pre ++ [s]) pre.length ds = .ok (pre ++ s :: ds, pre.length + ds.length) := by
  induction ds generalizing pre s with
  | nil => simp [connectAll]
  | cons d ds ih =>
    have hc := connect_at pre [] s [d] (by simp)
    have ih' := ih (pre ++ [s]) d
    simp only [List.append_assoc, List.singleton_append, List.length_append,
      List.length_singleton] at ih'
    simp only [connectAll, hc, ih', List.length_cons]
    congr 2
    omega

/-- C10, as stated, fails: a stage whose downstream is a threaded buffer with its worker
still inside `run` (here a fresh buffer, which no block was pushed to) is connected to a new
stage. Replacing the buffer destroys it, its destructor joins the worker, and the call is
held there instead of returning the new stage. -/
theorem connect_held_by_running_worker :
    connect [DataStreamPassThrough.new 0, DataStreamThreadedBuffer.new 100 false] 0
        [DataStreamPassThrough.new 1]
      = .error .joining
    ∧ connect [DataStreamPassThrough.new 0, DataStreamThreadedBuffer.new 100 false] 0
        [DataStreamPassThrough.new 1]
      ≠ .ok ([DataStreamPassThrough.new 0, DataStreamPassThrough.new 1], 1) :=
  ⟨rfl, (fun h => by cases h)⟩

/-- C10, as amended: when the worker of every threaded buffer in the downstream `old` that
`s` had before has left `run` (as when `s` had no downstream, or one without threaded
buffers), `s.connect(d)` returns, makes `d` the one downstream of `s` in place of `old`,
leaves the stages above `s` alone and returns the pointer to `d`; and connecting `d1 .. dn`
one after the other from a head `h` without a downstream, each on the pointer the previous
call returned, gives the chain `h, d1, .., dn` in this order, the last pointer being to
`dn`, which has no downstream. -/
theorem connect_chain (pre old : List Stage) (s d h : Stage) (ds : List Stage)
    (hold : ∀ x ∈ old, x.thread? ≠ some .running) :
    (connect (pre ++ s :: old) pre.length [d] = .ok (pre ++ [s, d], pre.length + 1)
      ∧ downStream (pre ++ [s, d]) pre.length = [d]
      ∧ (pre ++ [s, d]).drop (pre.length + 1) = [d])
    ∧ connectAll [h] 0 ds = .ok (h :: ds, ds.length)
    ∧ (h :: ds).drop ds.length = [(h :: ds).getLast (List.cons_ne_nil h ds)]
    ∧ downStream (h :: ds) ds.length = [] := by
  refine ⟨⟨connect_at pre old s [d] hold, ?_, ?_⟩, ?_, ?_, ?_⟩
  · simp [downStream]
  · simp
  · simpa using connectAll_at [] h ds
  · induction ds generalizing h with
    | nil => simp
    | cons d ds ih => simpa using ih d
  · simp [downStream]

/-- C10, for a pass-through stage whose downstream, a threaded buffer whose worker has
dequeued the end-of-processing block and finished, is replaced by a pass-through stage, and
for the assembly of two pass-through stages below a fresh threaded buffer. -/
theorem connect_chain_witness :
    (∀ x ∈ [(⟨.threadedBuffer [] 100 false .finished [.dequeued endBlock], []⟩ : Stage)],
        x.thread? ≠ some .running)
    ∧ connect ([] ++ DataStreamPassThrough.new 0
          :: [⟨.threadedBuffer [] 100 false .finished [.dequeued endBlock], []⟩])
        ([] : List Stage).length [DataStreamPassThrough.new 1]
      = .ok ([] ++ [DataStreamPassThrough.new 0, DataStreamPassThrough.new 1],
          ([] : List Stage).length + 1)
    ∧ connectAll [DataStreamThreadedBuffer.new 1000 false] 0
        [DataStreamPassThrough.new 0, DataStreamPassThrough.new 1]
      = .ok (DataStreamThreadedBuffer.new 1000 false
          :: [DataStreamPassThrough.new 0, DataStreamPassThrough.new 1],
        [DataStreamPassThrough.new 0, DataStreamPassThrough.new 1].length) :=
  have hold : ∀ x ∈ [(⟨.threadedBuffer [] 100 false .finished [.dequeued endBlock], []⟩ :
      Stage)], x.thread? ≠ some .running := by
    intro x hx
    simp only [List.mem_singleton] at hx
    subst hx
    simp [Stage.thread?]
  have h := connect_chain [] [⟨.threadedBuffer [] 100 false .finished [.dequeued endBlock], []⟩]
    (DataStreamPassThrough.new 0) (DataStreamPassThrough.new 1)
    (DataStreamThreadedBuffer.new 1000 false)
    [DataStreamPassThrough.new 0, DataStreamPassThrough.new 1] hold
  ⟨hold, h.1.1, h.2.1⟩

/-! ### Chains of pass-through stages -/

theorem pushDataAux_passThrough (js : List Nat) (s : Stage) (i : Nat)
    (hs : s.impl = .passThrough i) (sdb : SharedDataBlock) (n : Nat) (hn : js.length < n) :
    pushDataAux n (s :: js.map DataStreamPassThrough.new) sdb
      = .ok (s :: js.map (fun j => (DataStreamPassThrough.new j).record sdb)) := by
  induction js generalizing s i n with
  | nil =>
    obtain ⟨m, rfl⟩ : ∃ m, n = m + 1 := ⟨n - 1, by simp at hn; omega⟩
    simp [pushDataAux, hs]
  | cons j js ih =>
    obtain ⟨m, rfl⟩ : ∃ m, n = m + 1 := ⟨n - 1, by simp at hn; omega⟩
    have hm : js.length < m := by simp at hn; omega
    have := ih ((DataStreamPassThrough.new j).record sdb) j rfl m hm
    simp only [List.map_cons, pushDataAux, hs, processData, DataStreamPassThrough.new, this]
    simp [DataStreamPassThrough.new] at this ⊢
    simp [this]

/-- C8: a block pushed at the head of a chain of one or more pass-through stages is given,
with the payload and the end-of-processing flag it was pushed with, to `processData` of each
stage below the head, the last one included, once; the call returns. -/
theorem passThrough_chain_transparent (i : Nat) (js : List Nat) (sdb : SharedDataBlock) :
    pushData (DataStreamPassThrough.new i :: js.map DataStreamPassThrough.new) sdb
      = .ok (DataStreamPassThrough.new i
              :: js.map (fun j => ⟨.passThrough j, [sdb]⟩)) := by
  have := pushDataAux_passThrough js (DataStreamPassThrough.new i) i rfl sdb (js.length + 1)
    (by omega)
  simpa [pushData, DataStreamPassThrough.new, Stage.record] using this

/-! ### Reliable chains -/

theorem Reliable.drop {c : List Stage} (hc : Reliable c) (i : Nat) : Reliable (c.drop i) :=
  fun x hx => hc x (List.mem_of_mem_drop hx)

/-! ### The moves of a system headed by a threaded buffer -/

theorem workerEvents_append (hasDown : Bool) (done : List SharedDataBlock)
    (sdb : SharedDataBlock) :
    workerEvents hasDown (done ++ [sdb]) = workerEvents hasDown done ++
      (if hasDown && !sdb.isEndOfProcessing then [.dequeued sdb, .processed sdb, .pushed sdb]
       else [.dequeued sdb]) := by
  simp [workerEvents, List.flatMap_append]

theorem passedOn_append_data (done : List SharedDataBlock) (sdb : SharedDataBlock)
    (h : sdb.isEndOfProcessing = false) : passedOn (done ++ [sdb]) = passedOn done ++ [sdb] := by
  simp [passedOn, List.filter_append, h]

theorem passedOn_append_end (done : List SharedDataBlock) (sdb : SharedDataBlock)
    (h : sdb.isEndOfProcessing = true) : passedOn (done ++ [sdb]) = passedOn done := by
  simp [passedOn, List.filter_append, h]

section HeadBuffer

variable {maxBlocks : Nat} {bof hasDown : Bool}
  {I : List SharedDataBlock → List Stage → Prop}
  {done q pending : List SharedDataBlock} {th : ThreadState} {σ : System}

theorem step_push_room {sdb : SharedDataBlock}
    (h : HeadState maxBlocks bof hasDown I done q (sdb :: pending) th σ)
    (hq : q.length < maxBlocks) :
    ∃ σ', step .push σ = .ok σ'
      ∧ HeadState maxBlocks bof hasDown I done (q ++ [sdb]) pending th σ' := by
  obtain ⟨d, rfl, hI⟩ := h
  refine ⟨_, ?_, ⟨d, rfl, hI⟩⟩
  cases bof <;>
    simp [step, pushData, pushDataAux, DataStreamThreadedBuffer.pushData, try_enqueue,
      enqueue, hq]

theorem step_push_full {sdb : SharedDataBlock}
    (h : HeadState maxBlocks bof hasDown I done q (sdb :: pending) th σ)
    (hq : maxBlocks ≤ q.length) : step .push σ = .ok σ := by
  obtain ⟨d, rfl, _⟩ := h
  have hq' : ¬ q.length < maxBlocks := by omega
  cases bof <;>
    simp [step, pushData, pushDataAux, DataStreamThreadedBuffer.pushData, try_enqueue,
      enqueue, hq']

theorem step_push_nil (h : HeadState maxBlocks bof hasDown I done q [] th σ) :
    step .push σ = .ok σ := by
  obtain ⟨d, rfl, _⟩ := h
  simp [step]

theorem step_work_finished
    (h : HeadState maxBlocks bof hasDown I done q pending .finished σ) :
    step (.work 0) σ = .ok σ := by
  obtain ⟨d, rfl, _⟩ := h
  simp [step, runStep]

theorem step_work_empty (h : HeadState maxBlocks bof hasDown I done [] pending th σ) :
    step (.work 0) σ = .ok σ := by
  obtain ⟨d, rfl, _⟩ := h
  cases th <;> simp [step, runStep, wait_dequeue]

theorem step_work_end {sdb : SharedDataBlock}
    (h : HeadState maxBlocks bof hasDown I done (sdb :: q) pending .running σ)
    (hb : sdb.isEndOfProcessing = true) :
    ∃ σ', step (.work 0) σ = .ok σ'
      ∧ HeadState maxBlocks bof hasDown I (done ++ [sdb]) q pending .finished σ' := by
  obtain ⟨d, rfl, hI⟩ := h
  refine ⟨_, ?_, ⟨d, rfl, by rw [passedOn_append_end _ _ hb]; exact hI⟩⟩
  simp [step, runStep, wait_dequeue, hb, workerEvents_append, passedOn_append_end _ _ hb]

theorem step_work_data {sdb : SharedDataBlock}
    (h : HeadState maxBlocks bof hasDown I done (sdb :: q) pending .running σ)
    (hb : sdb.isEndOfProcessing = false)
    (hdown : ∀ d, I (passedOn done) d → (d = [] ↔ hasDown = false))
    (hfeed : ∀ d, I (passedOn done) d →
      ∃ d', feed d sdb = .ok d' ∧ I (passedOn done ++ [sdb]) d') :
    ∃ σ', step (.work 0) σ = .ok σ'
      ∧ HeadState maxBlocks bof hasDown I (done ++ [sdb]) q pending .running σ' := by
  obtain ⟨d, rfl, hI⟩ := h
  obtain ⟨d', hf, hI'⟩ := hfeed d hI
  have hd := hdown d hI
  rw [← passedOn_append_data _ _ hb] at hI'
  cases d with
  | nil =>
    have hh : hasDown = false := hd.1 rfl
    subst hh
    simp only [feed, Except.ok.injEq] at hf
    subst hf
    refine ⟨_, ?_, ⟨[], rfl, hI'⟩⟩
    simp [step, runStep, wait_dequeue, hb, workerEvents_append]
  | cons x rest =>
    have hh : hasDown = true := by
      cases hasDown
      · exact absurd (hd.2 rfl) (by simp)
      · rfl
    subst hh
    refine ⟨_, ?_, ⟨d', rfl, hI'⟩⟩
    simp only [feed] at hf
    cases hp : processData (x :: rest) sdb with
    | error e => simp [hp] at hf
    | ok r =>
      obtain ⟨r1, out⟩ := r
      simp only [hp] at hf
      simp [step, runStep, wait_dequeue, hb, hp, hf, workerEvents_append,
        passedOn_append_data _ _ hb]

theorem step_work_succ (i : Nat)
    (h : HeadState maxBlocks bof hasDown I done q pending th σ)
    (hnb : ∀ d, I (passedOn done) d → runStep (d.drop i) = .error .noWorker) :
    step (.work (i + 1)) σ = .ok σ := by
  obtain ⟨d, rfl, hI⟩ := h
  simp [step, hnb d hI]

end HeadBuffer

/-! ### Every schedule -/

theorem threadAfter_running {done : List SharedDataBlock}
    (h : ∀ sdb ∈ done, sdb.isEndOfProcessing = false) : threadAfter done = .running := by
  have : done.any SharedDataBlock.isEndOfProcessing = false := by
    rw [List.any_eq_false]; intro x hx; simp [h x hx]
  simp [threadAfter, this]

theorem threadAfter_finished {done : List SharedDataBlock} {sdb : SharedDataBlock}
    (h : sdb.isEndOfProcessing = true) : threadAfter (done ++ [sdb]) = .finished := by
  simp [threadAfter, h]

theorem all_data_of_running {done : List SharedDataBlock}
    (h : threadAfter done = .running) : ∀ sdb ∈ done, sdb.isEndOfProcessing = false := by
  intro x hx
  by_contra hc
  have : done.any SharedDataBlock.isEndOfProcessing = true :=
    List.any_eq_true.2 ⟨x, hx, by simpa using hc⟩
  simp [threadAfter, this] at h

theorem Inv.step {maxBlocks : Nat} {bof hasDown : Bool}
    {I : List SharedDataBlock → List Stage → Prop} {input : List SharedDataBlock}
    (D : Discipline input hasDown I) {σ : System} (h : Inv maxBlocks bof hasDown I input σ)
    (a : Action) : ∃ σ', step a σ = .ok σ' ∧ Inv maxBlocks bof hasDown I input σ' := by
  obtain ⟨done, q, hin, hlast, hs⟩ := h
  cases a with
  | push =>
    cases hp : σ.pending with
    | nil =>
      rw [hp] at hs
      exact ⟨σ, step_push_nil hs, done, q, hin, hlast, by rw [hp]; exact hs⟩
    | cons sdb later =>
      rw [hp] at hs hin
      by_cases hq : q.length < maxBlocks
      · obtain ⟨σ', h1, h2⟩ := step_push_room hs hq
        have hpend : σ'.pending = later := by obtain ⟨d, rfl, _⟩ := h2; rfl
        exact ⟨σ', h1, done, q ++ [sdb], by rw [hpend, ← hin]; simp, hlast,
          by rw [hpend]; exact h2⟩
      · exact ⟨σ, step_push_full hs (by omega), done, q, by rw [hp]; exact hin, hlast,
          by rw [hp]; exact hs⟩
  | work i =>
    cases i with
    | succ i =>
      exact ⟨σ, step_work_succ i hs (fun d hd => D.noWorker _ d i hd), done, q, hin, hlast, hs⟩
    | zero =>
      cases hth : threadAfter done with
      | finished =>
        rw [hth] at hs
        exact ⟨σ, step_work_finished hs, done, q, hin, hlast, by rw [hth]; exact hs⟩
      | running =>
        have hall := all_data_of_running hth
        rw [hth] at hs
        cases q with
        | nil => exact ⟨σ, step_work_empty hs, done, [], hin, hlast, by rw [hth]; exact hs⟩
        | cons sdb q =>
          have hlast' : ∀ x ∈ (done ++ [sdb]).dropLast, x.isEndOfProcessing = false := by
            simpa using hall
          have hin' : done ++ [sdb] ++ q ++ σ.pending = input := by rw [← hin]; simp
          cases hb : sdb.isEndOfProcessing with
          | true =>
            obtain ⟨σ', h1, h2⟩ := step_work_end hs hb
            have hpend : σ'.pending = σ.pending := by obtain ⟨d, rfl, _⟩ := h2; rfl
            exact ⟨σ', h1, done ++ [sdb], q, by rw [hpend]; exact hin', hlast',
              by rw [hpend, threadAfter_finished hb]; exact h2⟩
          | false =>
            have hmem : sdb ∈ input := by rw [← hin]; simp
            obtain ⟨σ', h1, h2⟩ := step_work_data hs hb (fun d hd => D.down _ d hd)
              (fun d hd => D.feed _ d sdb hd hmem hb)
            have hpend : σ'.pending = σ.pending := by obtain ⟨d, rfl, _⟩ := h2; rfl
            have hrun : threadAfter (done ++ [sdb]) = .running :=
              threadAfter_running (by
                intro x hx
                rcases List.mem_append.1 hx with hx | hx
                · exact hall x hx
                · simp at hx; rw [hx]; exact hb)
            exact ⟨σ', h1, done ++ [sdb], q, by rw [hpend]; exact hin', hlast',
              by rw [hpend, hrun]; exact h2⟩

theorem Inv.exec {maxBlocks : Nat} {bof hasDown : Bool}
    {I : List SharedDataBlock → List Stage → Prop} {input : List SharedDataBlock}
    (D : Discipline input hasDown I) (sched : List Action) {σ : System}
    (h : Inv maxBlocks bof hasDown I input σ) :
    ∃ σ', exec sched σ = .ok σ' ∧ Inv maxBlocks bof hasDown I input σ' := by
  induction sched generalizing σ with
  | nil => exact ⟨σ, rfl, h⟩
  | cons a as ih =>
    obtain ⟨σ1, h1, hi1⟩ := Inv.step D h a
    obtain ⟨σ2, h2, hi2⟩ := ih hi1
    exact ⟨σ2, by simp [CppDataStream.exec, h1, h2], hi2⟩

theorem Inv.init (maxBlocks : Nat) (bof : Bool) (I : List SharedDataBlock → List Stage → Prop)
    (input : List SharedDataBlock) (down : List Stage) (h0 : I [] down) :
    Inv maxBlocks bof (!down.isEmpty) I input
      ⟨input, DataStreamThreadedBuffer.new maxBlocks bof :: down⟩ :=
  ⟨[], [], by simp, by simp, down, by
    simp [DataStreamThreadedBuffer.new, threadAfter, workerEvents, passedOn], h0⟩

/-! ### The alternating schedule -/

theorem exec_rounds {maxBlocks : Nat} {bof hasDown : Bool}
    {I : List SharedDataBlock → List Stage → Prop} {input : List SharedDataBlock}
    (D : Discipline input hasDown I) (hcap : 0 < maxBlocks) (n : Nat) :
    ∀ (done pending : List SharedDataBlock) (σ : System),
      HeadState maxBlocks bof hasDown I done [] pending (threadAfter done) σ →
      n ≤ pending.length → (∀ sdb ∈ pending, sdb ∈ input) →
      (∀ sdb ∈ (done ++ pending.take n).dropLast, sdb.isEndOfProcessing = false) →
      ∃ σ', exec (rounds n) σ = .ok σ'
        ∧ HeadState maxBlocks bof hasDown I (done ++ pending.take n) [] (pending.drop n)
            (threadAfter (done ++ pending.take n)) σ' := by
  induction n with
  | zero =>
    intro done pending σ hs _ _ _
    exact ⟨σ, rfl, by simpa using hs⟩
  | succ n ih =>
    intro done pending σ hs hn hin hlast
    cases pending with
    | nil => simp at hn
    | cons sdb later =>
      have hall : ∀ x ∈ done, x.isEndOfProcessing = false := by
        intro x hx
        apply hlast
        rw [List.take_succ_cons, List.dropLast_append_of_ne_nil _ (by simp)]
        exact List.mem_append_left _ hx
      rw [threadAfter_running hall] at hs
      obtain ⟨σ1, h1, hs1⟩ := step_push_room hs (by simpa using hcap)
      simp only [List.nil_append] at hs1
      have key : ∃ σ2, step (.work 0) σ1 = .ok σ2
          ∧ HeadState maxBlocks bof hasDown I (done ++ [sdb]) [] later
              (threadAfter (done ++ [sdb])) σ2 := by
        cases hb : sdb.isEndOfProcessing with
        | true =>
          obtain ⟨σ2, h2, hs2⟩ := step_work_end hs1 hb
          exact ⟨σ2, h2, by rw [threadAfter_finished hb]; exact hs2⟩
        | false =>
          obtain ⟨σ2, h2, hs2⟩ := step_work_data hs1 hb (fun d hd => D.down _ d hd)
            (fun d hd => D.feed _ d sdb hd (hin sdb (by simp)) hb)
          have hrun : threadAfter (done ++ [sdb]) = .running :=
            threadAfter_running (by
              intro x hx
              rcases List.mem_append.1 hx with hx | hx
              · exact hall x hx
              · simp at hx; rw [hx]; exact hb)
          exact ⟨σ2, h2, by rw [hrun]; exact hs2⟩
      obtain ⟨σ2, h2, hs2⟩ := key
      obtain ⟨σ3, h3, hs3⟩ := ih (done ++ [sdb]) later σ2 hs2 (by simpa using hn)
        (fun x hx => hin x (by simp [hx])) (by simpa using hlast)
      refine ⟨σ3, by simp [rounds, exec, h1, h2, h3], ?_⟩
      simpa using hs3

/-! ### A head buffer over a reliable chain -/

theorem workerEvents_of_data (done : List SharedDataBlock)
    (h : ∀ sdb ∈ done, sdb.isEndOfProcessing = false) :
    workerEvents true done = inTurn done := by
  induction done with
  | nil => rfl
  | cons x xs ih =>
    have hx : x.isEndOfProcessing = false := h x (by simp)
    have := ih (fun y hy => h y (by simp [hy]))
    simp only [workerEvents, inTurn, List.flatMap_cons] at this ⊢
    rw [this]
    simp [hx]

theorem passedOn_of_data (done : List SharedDataBlock)
    (h : ∀ sdb ∈ done, sdb.isEndOfProcessing = false) : passedOn done = done := by
  simp only [passedOn, List.filter_eq_self]
  intro x hx
  simp [h x hx]

theorem sentinel_split (pre post : List SharedDataBlock) (e : SharedDataBlock)
    (hpre : ∀ sdb ∈ pre, sdb.isEndOfProcessing = false) (he : e.isEndOfProcessing = true) :
    ∀ (done tail : List SharedDataBlock), done ++ tail = pre ++ e :: post →
      (∀ sdb ∈ done.dropLast, sdb.isEndOfProcessing = false) →
      (threadAfter done = .running ∧ done <+: pre)
        ∨ (threadAfter done = .finished ∧ done = pre ++ [e] ∧ tail = post) := by
  induction pre with
  | nil =>
    intro done tail h hlast
    cases done with
    | nil => exact Or.inl ⟨rfl, List.prefix_refl _⟩
    | cons x done' =>
      simp only [List.cons_append, List.nil_append, List.cons.injEq] at h
      obtain ⟨rfl, h⟩ := h
      cases done' with
      | nil => exact Or.inr ⟨by simp [threadAfter, he], rfl, by simpa using h⟩
      | cons y ys =>
        have := hlast x (by simp [List.dropLast])
        rw [he] at this
        exact absurd this (by simp)
  | cons p pre' ih =>
    intro done tail h hlast
    have hp : p.isEndOfProcessing = false := hpre p (by simp)
    cases done with
    | nil => exact Or.inl ⟨rfl, List.nil_prefix⟩
    | cons x done' =>
      simp only [List.cons_append, List.cons.injEq] at h
      obtain ⟨rfl, h⟩ := h
      have hlast' : ∀ sdb ∈ done'.dropLast, sdb.isEndOfProcessing = false := by
        intro y hy
        apply hlast
        cases done' with
        | nil => simp at hy
        | cons z zs => simp only [List.dropLast_cons₂]; exact List.mem_cons_of_mem _ hy
      rcases ih (fun y hy => hpre y (by simp [hy])) done' tail h hlast' with ⟨h1, h2⟩ | ⟨h1, h2, h3⟩
      · refine Or.inl ⟨?_, by simpa using h2⟩
        simpa [threadAfter, hp] using h1
      · refine Or.inr ⟨?_, by simp [h2], h3⟩
        simpa [threadAfter, hp] using h1

theorem accumulate_mod (data : List (Fin 256)) (init : Nat) :
    accumulate data init % 2 ^ 64 = (init + (data.map Fin.val).sum) % 2 ^ 64 := by
  induction data generalizing init with
  | nil => simp [accumulate]
  | cons x xs ih =>
    have := ih ((init + x.val) % 2 ^ 64)
    simp only [accumulate, List.foldl_cons, List.map_cons, List.sum_cons] at this ⊢
    rw [this, Nat.add_mod, Nat.mod_mod, ← Nat.add_mod, Nat.add_assoc]

theorem totalOf_concat (vs : List (List (Fin 256))) (v : List (Fin 256)) :
    (totalOf vs + accumulate v 0) % 2 ^ 64 = totalOf (vs ++ [v]) := by
  have h := accumulate_mod v 0
  simp only [Nat.zero_add] at h
  simp only [totalOf, List.map_append, List.sum_append, List.map_cons, List.map_nil,
    List.sum_cons, List.sum_nil, Nat.add_zero]
  rw [Nat.add_mod, Nat.mod_mod, h, ← Nat.add_mod]

theorem dataBlock_injective : Function.Injective dataBlock := by
  intro v w h
  simp only [dataBlock, WritableDataBlock.asShared, WritableDataBlock.setData,
    WritableDataBlock.new] at h
  injection h with h1 _
  injection h1 with h2
  injection h2 with _ h3

theorem sum_discipline (index : Nat) (vecs : List (List (Fin 256))) :
    Discipline (vecs.map dataBlock ++ [endBlock]) true (SumAfter index) := by
  refine ⟨?_, ?_, ?_⟩
  · rintro fed d ⟨vs, rfl, rfl⟩
    simp
  · rintro fed d sdb ⟨vs, rfl, rfl⟩ hmem hdata
    have hv : ∃ v, sdb = dataBlock v := by
      rcases List.mem_append.1 hmem with h | h
      · obtain ⟨v, _, hv⟩ := List.mem_map.1 h
        exact ⟨v, hv.symm⟩
      · simp only [List.mem_singleton] at h
        subst h
        exact absurd hdata (by decide)
    obtain ⟨v, rfl⟩ := hv
    refine ⟨_, ?_, vs ++ [v], by simp, rfl⟩
    have hd : (dataBlock v).data .dataT = .ok v := rfl
    have he : (dataBlock v).isEndOfProcessing = false := rfl
    have ht := totalOf_concat vs v
    norm_num at ht
    simp [feed, processData, pushData, pushDataAux, hd, he, Stage.record, ht]
  · rintro fed d i ⟨vs, rfl, rfl⟩
    rcases i with _ | _ | i <;> simp [runStep]

theorem dataBlocks_data (vecs : List (List (Fin 256))) :
    ∀ sdb ∈ vecs.map dataBlock, sdb.isEndOfProcessing = false := by
  intro x hx
  obtain ⟨v, _, rfl⟩ := List.mem_map.1 hx
  rfl

theorem sumAfter_total {index : Nat} {vecs : List (List (Fin 256))} {d : List Stage}
    (h : SumAfter index (passedOn (vecs.map dataBlock ++ [endBlock])) d) :
    d = [⟨.simpleProcessor (totalOf vecs), vecs.map dataBlock⟩,
         ⟨.passThrough index, vecs.map dataBlock⟩] := by
  rw [passedOn_append_end _ _ (by rfl), passedOn_of_data _ (dataBlocks_data vecs)] at h
  obtain ⟨vs, hvs, rfl⟩ := h
  have : vecs = vs := List.map_injective_iff.2 dataBlock_injective hvs
  subst this
  rfl

/-- C7: a threaded buffer with a bound above zero over an accumulator and a pass-through
stage, with the data blocks of the vectors `vecs` and then the end-of-processing block to
push. The alternating schedule runs to the end of the worker, and then the sum of the
accumulator is the total of all the bytes of `vecs` modulo `2 ^ 64`, both stages having
been given exactly the data blocks. Under every schedule the program runs without a fault,
and when the worker has finished the sum is that total. For five vectors holding one byte
of value 1 the total is 5. -/
theorem accumulator_sum (maxBlocks : Nat) (bof : Bool) (index : Nat)
    (vecs : List (List (Fin 256))) (sched : List Action) (hcap : 0 < maxBlocks) :
    exec (rounds (vecs.length + 1)) ⟨vecs.map dataBlock ++ [endBlock],
        [DataStreamThreadedBuffer.new maxBlocks bof, SimpleDataStreamProcessor.new,
          DataStreamPassThrough.new index]⟩
      = .ok ⟨[], [⟨.threadedBuffer [] maxBlocks bof .finished
                    (inTurn (vecs.map dataBlock) ++ [.dequeued endBlock]),
                    vecs.map dataBlock⟩,
                  ⟨.simpleProcessor (totalOf vecs), vecs.map dataBlock⟩,
                  ⟨.passThrough index, vecs.map dataBlock⟩]⟩
    ∧ (∃ σ, exec sched ⟨vecs.map dataBlock ++ [endBlock],
          [DataStreamThreadedBuffer.new maxBlocks bof, SimpleDataStreamProcessor.new,
            DataStreamPassThrough.new index]⟩ = .ok σ
        ∧ (σ.chain.head?.bind Stage.thread? = some .finished →
            (σ.chain.get? 1).bind Stage.sum? = some (totalOf vecs)))
    ∧ totalOf (List.replicate 5 [1]) = 5 := by
  have D := sum_discipline index vecs
  have h0 : SumAfter index [] [SimpleDataStreamProcessor.new, DataStreamPassThrough.new index] :=
    ⟨[], rfl, rfl⟩
  refine ⟨?_, ?_, by decide⟩
  · have hs0 : HeadState maxBlocks bof true (SumAfter index) [] []
        (vecs.map dataBlock ++ [endBlock]) (threadAfter [])
        ⟨vecs.map dataBlock ++ [endBlock],
          [DataStreamThreadedBuffer.new maxBlocks bof, SimpleDataStreamProcessor.new,
            DataStreamPassThrough.new index]⟩ :=
      ⟨_, by simp [DataStreamThreadedBuffer.new, threadAfter, workerEvents, passedOn], h0⟩
    have hlen : (vecs.map dataBlock ++ [endBlock]).length = vecs.length + 1 := by simp
    obtain ⟨σ, hσ, d, rfl, hI⟩ := exec_rounds D hcap (vecs.length + 1) []
      (vecs.map dataBlock ++ [endBlock]) _ hs0 (by simp) (fun _ h => h) (by
        intro x hx
        rw [List.nil_append, ← hlen, List.take_length, List.dropLast_concat] at hx
        exact dataBlocks_data vecs x hx)
    rw [List.nil_append, ← hlen, List.take_length] at hI
    rw [hσ, ← hlen, sumAfter_total hI]
    simp only [List.nil_append, List.take_length, List.drop_length,
      threadAfter_finished (show endBlock.isEndOfProcessing = true from rfl),
      workerEvents_append, workerEvents_of_data _ (dataBlocks_data vecs),
      passedOn_append_end _ _ (show endBlock.isEndOfProcessing = true from rfl),
      passedOn_of_data _ (dataBlocks_data vecs)]
    rfl
  · have hinit := Inv.init maxBlocks bof (SumAfter index) (vecs.map dataBlock ++ [endBlock])
      [SimpleDataStreamProcessor.new, DataStreamPassThrough.new index] h0
    obtain ⟨σ, hσ, done, q, hin, hlast, d, hσeq, hI⟩ := Inv.exec D sched hinit
    refine ⟨σ, hσ, ?_⟩
    rw [hσeq]
    intro hth
    simp only [List.head?_cons, Option.bind_some, Stage.thread?, Option.some.injEq] at hth
    rcases sentinel_split (vecs.map dataBlock) [] endBlock (dataBlocks_data vecs) rfl done
        (q ++ σ.pending) (by rw [← hin]; simp) hlast with ⟨h1, _⟩ | ⟨_, h2, _⟩
    · rw [h1] at hth
      simp [Stage.thread?] at hth
    · rw [h2] at hI
      rw [sumAfter_total hI]
      rfl

/-- C7, for the scenario of five blocks holding the value 1 pushed into a buffer of bound 2
in the blocking mode: the sum is `totalOf (List.replicate 5 [1])`, which is 5. -/
theorem accumulator_sum_witness :
    0 < 2
    ∧ (exec (rounds ((List.replicate 5 [1]).length + 1))
        ⟨(List.replicate 5 [1]).map dataBlock ++ [endBlock],
          [DataStreamThreadedBuffer.new 2 true, SimpleDataStreamProcessor.new,
            DataStreamPassThrough.new 0]⟩
      = .ok ⟨[], [⟨.threadedBuffer [] 2 true .finished
                    (inTurn ((List.replicate 5 [1]).map dataBlock) ++ [.dequeued endBlock]),
                    (List.replicate 5 [1]).map dataBlock⟩,
                  ⟨.simpleProcessor (totalOf (List.replicate 5 [1])),
                    (List.replicate 5 [1]).map dataBlock⟩,
                  ⟨.passThrough 0, (List.replicate 5 [1]).map dataBlock⟩]⟩)
    ∧ totalOf (List.replicate 5 [1]) = 5 :=
  have h := accumulator_sum 2 true 0 (List.replicate 5 [1]) [] (by decide)
  ⟨by decide, h.1, h.2.2⟩

/-- C1: a threaded buffer of bound 1000 in the retrying mode over one pass-through stage,
with a data block and then the end-of-processing block pushed. The worker finishes on
dequeuing the end-of-processing block without pushing it on: the stage below was given the
data block only. -/
theorem sentinel_not_forwarded :
    exec (rounds 2) ⟨[dataBlock [1], endBlock],
        [DataStreamThreadedBuffer.new 1000 false, DataStreamPassThrough.new 0]⟩
      = .ok ⟨[], [⟨.threadedBuffer [] 1000 false .finished
                    [.dequeued (dataBlock [1]), .processed (dataBlock [1]),
                      .pushed (dataBlock [1]), .dequeued endBlock], [dataBlock [1]]⟩,
                  ⟨.passThrough 0, [dataBlock [1]]⟩]⟩
    ∧ ([dataBlock [1]].filter SharedDataBlock.isEndOfProcessing).length = 0 :=
  ⟨rfl, rfl⟩

/-- C2: a threaded buffer between two pass-through stages, and one data block pushed at the
head. The push at the head calls `processData` of the buffer, which calls that of the last
stage, and the worker of the buffer then does the same with the dequeued block: the buffer
and the last stage are given the block twice. -/
theorem middle_buffer_processes_twice :
    exec [.push, .work 1] ⟨[dataBlock [1]],
        [DataStreamPassThrough.new 0, DataStreamThreadedBuffer.new 2 false,
          DataStreamPassThrough.new 1]⟩
      = .ok ⟨[], [⟨.passThrough 0, []⟩,
                  ⟨.threadedBuffer [] 2 false .running
                    [.dequeued (dataBlock [1]), .processed (dataBlock [1]),
                      .pushed (dataBlock [1])], [dataBlock [1], dataBlock [1]]⟩,
                  ⟨.passThrough 1, [dataBlock [1], dataBlock [1]]⟩]⟩
    ∧ [dataBlock [1], dataBlock [1]].count (dataBlock [1]) = 2 :=
  ⟨rfl, by decide⟩

/-- C5: a pass-through stage with a threaded buffer connected as its last stage, and a data
block pushed at the head. The push calls `processData` of the buffer, which dereferences its
null `_downstream`. -/
theorem last_buffer_null_dereference :
    pushData [DataStreamPassThrough.new 0, DataStreamThreadedBuffer.new 100 false]
        (dataBlock [1])
      = .error (.fault .nullDereference)
    ∧ exec [.push] ⟨[dataBlock [1]],
        [DataStreamPassThrough.new 0, DataStreamThreadedBuffer.new 100 false]⟩
      = .error .nullDereference :=
  ⟨rfl, rfl⟩

/-! ### The recursion bound of `pushData` -/

theorem processData_sound (c : List Stage) (sdb : SharedDataBlock) :
    processData c sdb ≠ .error .outOfFuel
      ∧ ∀ c' out, processData c sdb = .ok (c', out) → c'.length = c.length := by
  induction c with
  | nil => simp [processData]
  | cons s rest ih =>
    obtain ⟨impl, seen⟩ := s
    cases impl with
    | passThrough i =>
      refine ⟨by simp [processData], ?_⟩
      intro c' out h
      simp only [processData, Except.ok.injEq, Prod.mk.injEq] at h
      rw [← h.1]; rfl
    | simpleProcessor n =>
      simp only [processData]
      split
      · refine ⟨by simp, ?_⟩
        intro c' out h
        simp only [Except.ok.injEq, Prod.mk.injEq] at h
        rw [← h.1]; rfl
      · split
        · simp
        · refine ⟨by simp, ?_⟩
          intro c' out h
          simp only [Except.ok.injEq, Prod.mk.injEq] at h
          rw [← h.1]; rfl
    | threadedBuffer q m b t e =>
      simp only [processData]
      cases hp : processData rest sdb with
      | error e =>
        rw [hp] at ih
        exact ⟨by simpa using ih.1, by simp⟩
      | ok r =>
        obtain ⟨r1, o⟩ := r
        rw [hp] at ih
        refine ⟨by simp, ?_⟩
        intro c' out h
        simp only [Except.ok.injEq, Prod.mk.injEq] at h
        rw [← h.1]
        simp [ih.2 r1 o rfl]
    | custom f =>
      simp only [processData]
      split
      · simp
      · refine ⟨by simp, ?_⟩
        intro c' out h
        simp only [Except.ok.injEq, Prod.mk.injEq] at h
        rw [← h.1]; rfl

theorem pushDataAux_ne_outOfFuel (n : Nat) :
    ∀ (c : List Stage) (sdb : SharedDataBlock), c.length ≤ n →
      pushDataAux n c sdb ≠ .error .outOfFuel := by
  induction n with
  | zero =>
    intro c sdb h
    have : c = [] := List.length_eq_zero.1 (by omega)
    subst this
    simp [pushDataAux]
  | succ n ih =>
    intro c sdb h
    cases c with
    | nil => simp [pushDataAux]
    | cons s rest =>
      obtain ⟨impl, seen⟩ := s
      have key : (match rest with
          | [] => (.ok [⟨impl, seen⟩] : Except Halt (List Stage))
          | d :: rest2 =>
            match processData (d :: rest2) sdb with
            | .error e => .error e
            | .ok (rest', processed) =>
              match pushDataAux n rest' processed with
              | .error e => .error e
              | .ok rest'' => .ok (⟨impl, seen⟩ :: rest'')) ≠ .error .outOfFuel := by
        cases rest with
        | nil => simp
        | cons d rest2 =>
          have hps := processData_sound (d :: rest2) sdb
          cases hp : processData (d :: rest2) sdb with
          | error e =>
            rw [hp] at hps
            simp only []
            rw [hp]
            simpa using hps.1
          | ok r =>
            obtain ⟨r1, o⟩ := r
            have hl : r1.length ≤ n := by
              rw [hps.2 r1 o hp]; simpa using h
            have := ih r1 o hl
            simp only []
            rw [hp]
            cases hq : pushDataAux n r1 o with
            | error e =>
              rw [hq] at this
              simp only []
              rw [hq]
              simpa using this
            | ok r2 =>
              simp only []
              rw [hq]
              simp
      cases impl with
      | threadedBuffer q m b t e =>
        simp only [pushDataAux]
        split <;> simp
      | passThrough i => simpa only [pushDataAux] using key
      | simpleProcessor k => simpa only [pushDataAux] using key
      | custom f => simpa only [pushDataAux] using key

theorem pushData_ne_outOfFuel (c : List Stage) (sdb : SharedDataBlock) :
    pushData c sdb ≠ .error .outOfFuel :=
  pushDataAux_ne_outOfFuel c.length c sdb le_rfl

end CppDataStream
